import Mathlib

/-!
Verification of the front-matter data-extraction and schema-inference engine
of the `obsidian-projects` repository.

The file shallowly embeds `FrontMatterDataSource` (frontmatter.ts):
`includes`, `parseRecords`, `detectSchema`, `queryFiles`, `queryAll`,
`queryOne`.  Helper modules that the repository imports but whose sources are
not available (`detectFields`, `stringFallback`, `standardizeRecord`,
`notEmpty`, and the host application's vault/metadata-cache interface) are
modelled from the specification; each such definition carries a doc comment
starting with `Modelled from the spec:`.

JavaScript strings are embedded as Lean `String`s; the JS string methods used
by the source (`startsWith`, `split`, `slice`, `Array.join`) are implemented
over the underlying character list so that every definition is computable by
the kernel.
-/

/-- JS `s.startsWith(p)` on character lists. -/
def strStartsWith : List Char → List Char → Bool
  | _, [] => true
  | [], _ :: _ => false
  | c :: cs, d :: ds => c = d && strStartsWith cs ds

/-- JS `s.split(sep)` for a single-character separator: splits at every
occurrence of `sep`; the empty string yields `[""]`. -/
def jsSplit (sep : Char) : List Char → List (List Char)
  | [] => [[]]
  | c :: cs =>
    let rest := jsSplit sep cs
    if c = sep then [] :: rest
    else
      match rest with
      | [] => [[c]]
      | r :: rs => (c :: r) :: rs

/-- JS `arr.join(sep)` for a single-character separator. -/
def jsJoin (sep : Char) : List (List Char) → List Char
  | [] => []
  | [s] => s
  | s :: rest => s ++ sep :: jsJoin sep rest

/-- Metadata values: the JSON-like values a front-matter map can hold
(`null`/`undefined` are identified, as the engine treats them alike). -/
inductive Value where
  | null : Value
  | str : String → Value
  | num : Int → Value
  | boolean : Bool → Value
  | vlist : List Value → Value

/-- Detected column types (`DataFieldType` in data.ts). -/
inductive DataFieldType where
  | string : DataFieldType
  | number : DataFieldType
  | boolean : DataFieldType
  | date : DataFieldType
  | unknown : DataFieldType
deriving DecidableEq, Repr

/-- A detected column descriptor (`DataField`).  The optional `typeConfig` of
the data model is not embedded: no verified property concerns it. -/
structure DataField where
  name : String
  type : DataFieldType
  repeated : Bool
  derived : Bool
  identifier : Bool
deriving DecidableEq, Repr

/-- One document's normalized row (`DataRecord`): an id derived from the
document path and an ordered key/value mapping (JS object ≙ association
list in insertion order). -/
structure DataRecord where
  id : String
  values : List (String × Value)

/-- The query result (`DataFrame`). -/
structure DataFrame where
  fields : List DataField
  records : List DataRecord

/-- A host document (`TFile`): full path and display name (`basename`). -/
structure TFile where
  path : String
  basename : String
deriving DecidableEq, Repr

/-- A metadata-cache entry (`CachedMetadata`): the front-matter map when the
document has one.  The raw map may contain the internal `position` key. -/
structure FileCache where
  frontmatter : Option (List (String × Value))

/-- A collection definition (`ProjectDefinition`): root path and the
recursive flag. -/
structure ProjectDefinition where
  path : String
  recursive : Bool
deriving DecidableEq, Repr

/-- JS `record[key]`: first binding of `key` in the association list. -/
def lookupValue : List (String × Value) → String → Option Value
  | [], _ => none
  | (k, v) :: rest, key => if k = key then some v else lookupValue rest key

/-- JS `record[key] = v`: overwrite the existing binding in place, or append
a new binding at the end. -/
def setValue : List (String × Value) → String → Value → List (String × Value)
  | [], key, v => [(key, v)]
  | (k, w) :: rest, key, v =>
    if k = key then (key, v) :: rest else (k, w) :: setValue rest key v

/-- `FrontMatterDataSource.includes`: a document path belongs to the project
when it starts with the root (leading `/` stripped); non-recursive projects
additionally require the containing directory to equal the root. -/
def includes (project : ProjectDefinition) (path : String) : Bool :=
  let trimmedPath : List Char :=
    if strStartsWith project.path.data ['/'] then project.path.data.drop 1
    else project.path.data
  if !strStartsWith path.data trimmedPath then false
  else if !project.recursive then
    let pathElements := (jsSplit '/' path.data).dropLast
    let projectPathElements :=
      (jsSplit '/' trimmedPath).filter (fun el => !el.isEmpty)
    decide (jsJoin '/' pathElements = jsJoin '/' projectPathElements)
  else true

/-- Modelled from the spec: `notEmpty` (src/lib/helpers, not in src/).  §4.2
step 2: a value is empty when it is null/undefined, the empty string, or an
empty list. -/
def notEmpty : Value → Bool
  | .null => false
  | .str s => !s.data.isEmpty
  | .vlist xs => !xs.isEmpty
  | _ => true

/-- Modelled from the spec: `standardizeRecord` (frontmatter-helpers, not in
src/).  §4.2 step 4 describes a standardization valve with no concrete
transformation specified, so it is modelled as packaging the id and the
values into a Record. -/
def standardizeRecord (id : String) (values : List (String × Value)) : DataRecord :=
  ⟨id, values⟩

/-- Modelled from the spec: date-like string detection used by the Value
Classifier (§4.1, "explicit date-like string patterns"): the ISO
`YYYY-MM-DD` shape. -/
def isDateString : List Char → Bool
  | [y1, y2, y3, y4, h1, m1, m2, h2, d1, d2] =>
    y1.isDigit && y2.isDigit && y3.isDigit && y4.isDigit && h1 = '-' &&
    m1.isDigit && m2.isDigit && h2 = '-' && d1.isDigit && d2.isDigit
  | _ => false

/-- Modelled from the spec: unambiguous numeric string detection (§4.1). -/
def isNumericString (s : List Char) : Bool :=
  !s.isEmpty && s.all Char.isDigit

/-- Modelled from the spec: the scalar branch of the Value Classifier (§4.1):
date-like strings → Date, boolean literals → Boolean, numbers and unambiguous
numeric strings → Number, other strings → String, null and nested structure →
Unknown. -/
def classifyScalar : Value → DataFieldType
  | .null => .unknown
  | .boolean _ => .boolean
  | .num _ => .number
  | .str s =>
    if isDateString s.data then .date
    else if isNumericString s.data then .number
    else .string
  | .vlist _ => .unknown

/-- Modelled from the spec: the Value Classifier `classify` (§4.1).  A list
value takes the type of its first non-empty element (Unknown when empty or
all-empty); scalars go through `classifyScalar`. -/
def classify : Value → DataFieldType
  | .vlist xs =>
    match xs.find? notEmpty with
    | some v => classifyScalar v
    | none => .unknown
  | v => classifyScalar v

/-- Whether a value is list-valued (drives the `repeated` flag). -/
def Value.isList : Value → Bool
  | .vlist _ => true
  | _ => false

/-- Modelled from the spec: consensus typing of the Schema Detector (§4.3):
the most frequent non-Unknown observed type wins; any tie breaks toward
String; no non-Unknown observation yields Unknown. -/
def consensusType (types : List DataFieldType) : DataFieldType :=
  let cs := types.count .string
  let cn := types.count .number
  let cb := types.count .boolean
  let cd := types.count .date
  let m := max (max cs cn) (max cb cd)
  if m = 0 then .unknown
  else if cn = m ∧ cs < m ∧ cb < m ∧ cd < m then .number
  else if cb = m ∧ cs < m ∧ cn < m ∧ cd < m then .boolean
  else if cd = m ∧ cs < m ∧ cn < m ∧ cb < m then .date
  else .string

/-- Modelled from the spec: the union of keys observed across the records
(§4.3), in deterministic order. -/
def allKeys (records : List DataRecord) : List String :=
  (records.flatMap (fun r => r.values.map Prod.fst)).dedup

/-- The values observed for a key across the records (present keys only). -/
def observedValues (records : List DataRecord) (key : String) : List Value :=
  records.filterMap (fun r => lookupValue r.values key)

/-- Modelled from the spec: `detectFields` (src/lib/datasources/helpers, not
in src/), per §4.3: one field per observed key, carrying the consensus type
of its observed values and `repeated` when any observed value is list-valued;
the `derived` and `identifier` flags default to false and are set afterwards
by `detectSchema`. -/
def detectFields (records : List DataRecord) : List DataField :=
  (allKeys records).map (fun key =>
    let vs := observedValues records key
    { name := key
      type := consensusType (vs.map classify)
      repeated := vs.any Value.isList
      derived := false
      identifier := false })

/-- `detectSchema` (frontmatter.ts): the detected fields with `derived`
forced on "name" and "path", then `identifier` forced on "path". -/
def detectSchema (records : List DataRecord) : List DataField :=
  ((detectFields records).map (fun field =>
      if field.name = "name" ∨ field.name = "path"
      then { field with derived := true } else field)).map
    (fun field =>
      if field.name = "path" then { field with identifier := true } else field)

/-- The loop body of `parseRecords` (frontmatter.ts) for one file with a
cache entry: take its front matter (or the empty map), drop the internal
`position` key, drop empty values, overwrite `path` and `name` with the
document's path and basename, and standardize. -/
def extractRecord (file : TFile) (cache : FileCache) : DataRecord :=
  let values :=
    (cache.frontmatter.getD []).filter (fun kv => kv.1 ≠ "position")
  let filteredValues := values.filter (fun kv => notEmpty kv.2)
  let withPath := setValue filteredValues "path" (Value.str file.path)
  let withName := setValue withPath "name" (Value.str file.basename)
  standardizeRecord file.path withName

/-- `parseRecords` (frontmatter.ts): one record per file whose cache lookup
succeeds; a file whose cache lookup returns nothing is skipped. -/
def parseRecords (files : List TFile) (metadataCache : TFile → Option FileCache) :
    List DataRecord :=
  files.filterMap (fun file => (metadataCache file).map (extractRecord file))

/-- Modelled from the spec: the best-effort string rendering of a scalar used
by the Fallback Normalizer (§4.4). -/
def scalarToString : Value → String
  | .null => ""
  | .str s => s
  | .num n => toString n
  | .boolean b => if b then "true" else "false"
  | .vlist _ => ""

/-- Modelled from the spec: the best-effort string rendering of any value
used by the Fallback Normalizer (§4.4); list elements are joined with
commas. -/
def valueToString : Value → String
  | .vlist xs => String.intercalate "," (xs.map scalarToString)
  | v => scalarToString v

/-- Coercion of a single value by the Fallback Normalizer: plain strings are
kept, everything else is rendered to a string. -/
def stringCoerce : Value → Value
  | .str s => .str s
  | v => .str (valueToString v)

/-- Coercion of one key/value entry by the Fallback Normalizer: entries under
`fieldName` have their value coerced to a string, other entries are kept. -/
def coerceEntry (fieldName : String) (kv : String × Value) : String × Value :=
  if kv.1 = fieldName then (kv.1, stringCoerce kv.2) else kv

/-- Modelled from the spec: `stringFallback` (src/lib/datasources/helpers,
not in src/), per §4.4: in every record, a value present under `fieldName`
that is not already a plain string is replaced by its string rendering;
absent values stay absent and other keys are untouched. -/
def stringFallback (records : List DataRecord) (fieldName : String) : List DataRecord :=
  records.map (fun r => { r with values := r.values.map (coerceEntry fieldName) })

/-- `queryFiles` (frontmatter.ts): parse the records, detect the schema, then
run the string fallback over every String-typed field's name. -/
def queryFiles (files : List TFile) (metadataCache : TFile → Option FileCache) :
    DataFrame :=
  let records := parseRecords files metadataCache
  let fields := detectSchema records
  ⟨fields,
    ((fields.filter (fun field => field.type = DataFieldType.string)).map
        (fun field => field.name)).foldl stringFallback records⟩

/-- Modelled from the spec: the host application visible to the data source
(§6): the document listing (each document with a flag saying whether it is a
Markdown file, so that `getMarkdownFiles` can filter) and the per-document
metadata lookup (`getFileCache`). -/
structure AppModel where
  allFiles : List (TFile × Bool)
  metadataCache : TFile → Option FileCache

/-- Modelled from the spec: `vault.getMarkdownFiles()` — the Markdown files
of the host's document listing. -/
def getMarkdownFiles (app : AppModel) : List TFile :=
  (app.allFiles.filter (fun fb => fb.2)).map Prod.fst

/-- `queryAll` (frontmatter.ts): query the Markdown files whose paths the
project includes. -/
def queryAll (app : AppModel) (project : ProjectDefinition) : DataFrame :=
  queryFiles
    ((getMarkdownFiles app).filter (fun file => includes project file.path))
    app.metadataCache

/-- `queryOne` (frontmatter.ts): query a single file. -/
def queryOne (app : AppModel) (file : TFile) : DataFrame :=
  queryFiles [file] app.metadataCache

/-- A concrete document used by witnesses. -/
def fileA : TFile := ⟨"Projects/a.md", "a"⟩

/-- A second concrete document used by witnesses. -/
def fileB : TFile := ⟨"Projects/b.md", "b"⟩

/-- A concrete metadata cache used by witnesses: `fileA` carries a numeric
value and every other file a plain string value under the shared key "x",
forcing a 50/50 type tie on that key. -/
def mcTie : TFile → Option FileCache := fun file =>
  if file = fileA then some ⟨some [("x", Value.num 1)]⟩
  else some ⟨some [("x", Value.str "hi")]⟩

/-- A concrete host application used by witnesses: one Markdown document and
one non-Markdown document. -/
def appTie : AppModel := ⟨[(fileA, true), (fileB, false)], mcTie⟩

theorem lookupValue_setValue_self (l : List (String × Value)) (k : String) (v : Value) :
    lookupValue (setValue l k v) k = some v := by
  induction l with
  | nil => simp [setValue, lookupValue]
  | cons kv rest ih =>
    obtain ⟨a, w⟩ := kv
    by_cases h : a = k
    · simp [setValue, h, lookupValue]
    · simp [setValue, h, lookupValue, ih]

theorem lookupValue_setValue_ne (l : List (String × Value)) (k k' : String) (v : Value)
    (h : k' ≠ k) : lookupValue (setValue l k v) k' = lookupValue l k' := by
  induction l with
  | nil => simp [setValue, lookupValue, Ne.symm h]
  | cons kv rest ih =>
    obtain ⟨a, w⟩ := kv
    by_cases ha : a = k
    · subst ha
      simp [setValue, lookupValue, Ne.symm h]
    · by_cases ha' : a = k'
      · simp [setValue, ha, lookupValue, ha', h]
      · simp [setValue, ha, lookupValue, ha', ih]

theorem mem_keys_setValue (l : List (String × Value)) (k a : String) (v : Value) :
    a ∈ (setValue l k v).map Prod.fst ↔ a = k ∨ a ∈ l.map Prod.fst := by
  induction l with
  | nil => simp [setValue]
  | cons kv rest ih =>
    obtain ⟨b, w⟩ := kv
    by_cases hb : b = k
    · subst hb
      simp [setValue]
    · simp [setValue, hb, ih]
      tauto

/-- C3 counterexample: a document whose metadata lookup returns no cache
entry is skipped by `parseRecords` instead of being treated as an empty map:
one document goes in and zero records come out. -/
theorem parseRecords_skips_cacheless_file :
    parseRecords [⟨"Projects/a.md", "a"⟩] (fun _ => none) = [] := rfl

/-- C3 (amended): a document whose cache entry exists but carries no front
matter is treated as having an empty map and yields the minimal record
holding exactly `path` and `name`; a document whose cache lookup returns
nothing yields no record at all. -/
theorem parseRecords_missing_metadata (file : TFile) (mc : TFile → Option FileCache) :
    (mc file = some ⟨none⟩ →
      parseRecords [file] mc =
        [⟨file.path,
          [("path", Value.str file.path), ("name", Value.str file.basename)]⟩])
    ∧ (mc file = none → parseRecords [file] mc = []) := by
  constructor
  · intro h
    simp [parseRecords, h, extractRecord, standardizeRecord, setValue]
  · intro h
    simp [parseRecords, h]

/-- Witness for C3 (amended): a concrete document with a cache entry and no
front matter yields exactly the minimal `path`/`name` record. -/
theorem parseRecords_missing_metadata_witness :
    parseRecords [⟨"Projects/a.md", "a"⟩] (fun _ => some ⟨none⟩) =
      [⟨"Projects/a.md",
        [("path", Value.str "Projects/a.md"), ("name", Value.str "a")]⟩] :=
  (parseRecords_missing_metadata ⟨"Projects/a.md", "a"⟩ (fun _ => some ⟨none⟩)).1 rfl

/-- C7: the extracted record's `path` and `name` values are always the
document's full path and its display name, even when the document's own
metadata defines keys with those names: the derived values unconditionally
overwrite same-named user-authored values. -/
theorem extractRecord_path_name (file : TFile) (cache : FileCache) :
    lookupValue (extractRecord file cache).values "path" = some (Value.str file.path) ∧
    lookupValue (extractRecord file cache).values "name" = some (Value.str file.basename) := by
  simp only [extractRecord, standardizeRecord]
  constructor
  · rw [lookupValue_setValue_ne _ _ _ _ (by decide)]
    exact lookupValue_setValue_self _ _ _
  · exact lookupValue_setValue_self _ _ _

/-- C8 counterexample: metadata holding an empty (null) value under the key
"path" still produces a record containing the key "path" (the extractor
re-inserts it with the derived value), contradicting the claim that a record
never contains a key whose metadata value was empty. -/
theorem extractRecord_keeps_empty_path_key :
    notEmpty Value.null = false ∧
    "path" ∈ (extractRecord ⟨"a.md", "a"⟩ ⟨some [("path", Value.null)]⟩).values.map Prod.fst := by
  decide

/-- C8 (amended): a key all of whose metadata values are empty is absent
from the extracted record unless it is `path` or `name`, which the extractor
always re-inserts with derived values; the internal bookkeeping key
`position` never appears in a record. -/
theorem extractRecord_filters_empty (file : TFile) (cache : FileCache) (key : String) :
    "position" ∉ (extractRecord file cache).values.map Prod.fst ∧
    (key ≠ "path" → key ≠ "name" →
      (∀ v, (key, v) ∈ cache.frontmatter.getD [] → notEmpty v = false) →
      key ∉ (extractRecord file cache).values.map Prod.fst) := by
  simp only [extractRecord, standardizeRecord]
  constructor
  · intro hmem
    rcases (mem_keys_setValue _ _ _ _).mp hmem with h | hmem'
    · exact absurd h (by decide)
    rcases (mem_keys_setValue _ _ _ _).mp hmem' with h | hmem''
    · exact absurd h (by decide)
    rcases List.mem_map.mp hmem'' with ⟨kv, hkv, hfst⟩
    have h1 := (List.mem_filter.mp hkv).1
    have h2 := (List.mem_filter.mp h1).2
    rw [hfst] at h2
    simp at h2
  · intro hp hn hempty hmem
    rcases (mem_keys_setValue _ _ _ _).mp hmem with h | hmem'
    · exact hn h
    rcases (mem_keys_setValue _ _ _ _).mp hmem' with h | hmem''
    · exact hp h
    rcases List.mem_map.mp hmem'' with ⟨kv, hkv, hfst⟩
    have h1 := (List.mem_filter.mp hkv).1
    have h2 := (List.mem_filter.mp hkv).2
    have h3 := (List.mem_filter.mp h1).1
    have : (key, kv.2) ∈ cache.frontmatter.getD [] := by
      rw [← hfst]
      exact h3
    rw [hempty kv.2 this] at h2
    cases h2

/-- Witness for C8 (amended): a concrete record extracted from metadata whose
only key "e" carries a null value does not contain "e". -/
theorem extractRecord_filters_empty_witness :
    "e" ∉ (extractRecord ⟨"a.md", "a"⟩ ⟨some [("e", Value.null)]⟩).values.map Prod.fst :=
  (extractRecord_filters_empty ⟨"a.md", "a"⟩ ⟨some [("e", Value.null)]⟩ "e").2
    (by decide) (by decide)
    (fun v hv => by
      have h := List.mem_singleton.mp hv
      have h2 : v = Value.null := congrArg Prod.snd h
      rw [h2]
      rfl)

theorem mem_parseRecords {r : DataRecord} {files : List TFile}
    {mc : TFile → Option FileCache} :
    r ∈ parseRecords files mc ↔
      ∃ file ∈ files, ∃ cache, mc file = some cache ∧ extractRecord file cache = r := by
  simp only [parseRecords, List.mem_filterMap, Option.map_eq_some']

theorem path_mem_keys_extractRecord (file : TFile) (cache : FileCache) :
    "path" ∈ (extractRecord file cache).values.map Prod.fst := by
  simp only [extractRecord, standardizeRecord]
  exact (mem_keys_setValue _ _ _ _).mpr
    (Or.inr ((mem_keys_setValue _ _ _ _).mpr (Or.inl rfl)))

theorem path_mem_allKeys (files : List TFile) (mc : TFile → Option FileCache)
    (h : parseRecords files mc ≠ []) : "path" ∈ allKeys (parseRecords files mc) := by
  obtain ⟨r, hr⟩ := List.exists_mem_of_ne_nil _ h
  unfold allKeys
  rw [List.mem_dedup, List.mem_flatMap]
  refine ⟨r, hr, ?_⟩
  obtain ⟨file, _, cache, _, he⟩ := mem_parseRecords.mp hr
  rw [← he]
  exact path_mem_keys_extractRecord file cache

theorem filter_eq_singleton_of_nodup {l : List String} {a : String} (hn : l.Nodup)
    (ha : a ∈ l) : l.filter (fun x => x = a) = [a] := by
  induction l with
  | nil => cases ha
  | cons b bs ih =>
    rw [List.nodup_cons] at hn
    rcases List.mem_cons.mp ha with h | h
    · subst h
      rw [List.filter_cons_of_pos (by simp)]
      have : bs.filter (fun x => x = a) = [] := by
        rw [List.filter_eq_nil_iff]
        intro x hx
        simp only [decide_eq_true_eq]
        rintro rfl
        exact hn.1 hx
      rw [this]
    · have hb : ¬(b = a) := by
        rintro rfl
        exact hn.1 h
      rw [List.filter_cons_of_neg (by simp [hb])]
      exact ih hn.2 h

/-- Normal form of `detectSchema`: one field per observed key, with the
`derived` and `identifier` flags computed from the key name. -/
theorem detectSchema_eq_map (records : List DataRecord) :
    detectSchema records = (allKeys records).map (fun key =>
      { name := key
        type := consensusType ((observedValues records key).map classify)
        repeated := (observedValues records key).any Value.isList
        derived := decide (key = "name" ∨ key = "path")
        identifier := decide (key = "path") }) := by
  unfold detectSchema detectFields
  rw [List.map_map, List.map_map]
  apply List.map_congr_left
  intro k _
  by_cases h1 : k = "name" <;> by_cases h2 : k = "path" <;>
    simp [Function.comp, h1, h2]

/-- C1: on every non-empty record set produced by `parseRecords`, the
detected schema has exactly one field with `identifier = true`, that field is
named "path", and every field named "path" or "name" has `derived = true`. -/
theorem detectSchema_identifier_invariant (files : List TFile)
    (mc : TFile → Option FileCache) (h : parseRecords files mc ≠ []) :
    ((detectSchema (parseRecords files mc)).filter
        (fun f => f.identifier)).map (fun f => f.name) = ["path"] ∧
    ∀ f ∈ detectSchema (parseRecords files mc),
      (f.name = "path" ∨ f.name = "name") → f.derived = true := by
  have hpath := path_mem_allKeys files mc h
  have hnodup : (allKeys (parseRecords files mc)).Nodup := List.nodup_dedup _
  constructor
  · rw [detectSchema_eq_map, List.filter_map, List.map_map]
    simp only [Function.comp_def]
    rw [show (allKeys (parseRecords files mc)).filter
          (fun k => decide (k = "path")) = ["path"] from
        filter_eq_singleton_of_nodup hnodup hpath]
    rfl
  · intro f hf hname
    rw [detectSchema_eq_map] at hf
    rcases List.mem_map.mp hf with ⟨k, _, rfl⟩
    simp only at hname
    simp only [decide_eq_true_eq]
    tauto

/-- Witness for C1: a concrete one-document query produces a non-empty record
set whose schema has exactly the one identifier field "path". -/
theorem detectSchema_identifier_invariant_witness :
    ((detectSchema (parseRecords [⟨"Projects/a.md", "a"⟩]
        (fun _ => some ⟨some [("x", Value.num 1)]⟩))).filter
      (fun f => f.identifier)).map (fun f => f.name) = ["path"] :=
  (detectSchema_identifier_invariant [⟨"Projects/a.md", "a"⟩]
    (fun _ => some ⟨some [("x", Value.num 1)]⟩)
    (by
      intro hcontra
      exact absurd (congrArg List.length hcontra) (by decide))).1

theorem stringCoerce_idem (v : Value) : stringCoerce (stringCoerce v) = stringCoerce v := by
  cases v <;> rfl

theorem stringCoerce_isStr (v : Value) : ∃ s, stringCoerce v = Value.str s := by
  cases v <;> exact ⟨_, rfl⟩

theorem coerceEntry_eq (n a : String) (w : Value) (h : a = n) :
    coerceEntry n (a, w) = (a, stringCoerce w) := by
  subst h
  rw [coerceEntry, if_pos rfl]

theorem coerceEntry_ne (n a : String) (w : Value) (h : ¬a = n) :
    coerceEntry n (a, w) = (a, w) := by
  rw [coerceEntry, if_neg h]

theorem coerceEntry_idem (n : String) (kv : String × Value) :
    coerceEntry n (coerceEntry n kv) = coerceEntry n kv := by
  obtain ⟨a, w⟩ := kv
  by_cases h : a = n
  · rw [coerceEntry_eq n a w h, coerceEntry_eq n a _ h, stringCoerce_idem]
  · rw [coerceEntry_ne n a w h, coerceEntry_ne n a w h]

theorem coerceEntry_fst (n : String) (kv : String × Value) :
    (coerceEntry n kv).1 = kv.1 := by
  obtain ⟨a, w⟩ := kv
  by_cases h : a = n
  · rw [coerceEntry_eq n a w h]
  · rw [coerceEntry_ne n a w h]

theorem lookupValue_cons (a : String) (w : Value) (rest : List (String × Value))
    (key : String) :
    lookupValue ((a, w) :: rest) key = if a = key then some w else lookupValue rest key := rfl

/-- C9: the fallback normalizer is idempotent: a second application to the
same field name changes nothing. -/
theorem stringFallback_idempotent (records : List DataRecord) (fieldName : String) :
    stringFallback (stringFallback records fieldName) fieldName =
      stringFallback records fieldName := by
  unfold stringFallback
  rw [List.map_map]
  apply List.map_congr_left
  intro r _
  simp only [Function.comp_def]
  congr 1
  rw [List.map_map]
  apply List.map_congr_left
  intro kv _
  simp only [Function.comp_def]
  exact coerceEntry_idem fieldName kv

theorem lookup_coerced_self (l : List (String × Value)) (n : String) :
    lookupValue (l.map (coerceEntry n)) n = (lookupValue l n).map stringCoerce := by
  induction l with
  | nil => rfl
  | cons kv rest ih =>
    obtain ⟨a, w⟩ := kv
    rw [List.map_cons]
    by_cases h : a = n
    · rw [coerceEntry_eq n a w h, lookupValue_cons, lookupValue_cons, if_pos h, if_pos h]
      rfl
    · have h' : ¬a = n := h
      rw [coerceEntry_ne n a w h, lookupValue_cons, lookupValue_cons, if_neg h', if_neg h', ih]

theorem lookup_coerced_other (l : List (String × Value)) (n n' : String) (h : n' ≠ n) :
    lookupValue (l.map (coerceEntry n)) n' = lookupValue l n' := by
  induction l with
  | nil => rfl
  | cons kv rest ih =>
    obtain ⟨a, w⟩ := kv
    rw [List.map_cons]
    by_cases ha : a = n
    · rw [coerceEntry_eq n a w ha, lookupValue_cons, lookupValue_cons]
      have hne : ¬a = n' := fun hc => h (hc ▸ ha)
      rw [if_neg hne, if_neg hne, ih]
    · rw [coerceEntry_ne n a w ha, lookupValue_cons, lookupValue_cons, ih]

theorem mem_stringFallback {records : List DataRecord} {n : String} {r' : DataRecord}
    (h : r' ∈ stringFallback records n) :
    ∃ r ∈ records, r'.id = r.id ∧ r'.values = r.values.map (coerceEntry n) := by
  unfold stringFallback at h
  rcases List.mem_map.mp h with ⟨r, hr, rfl⟩
  exact ⟨r, hr, rfl, rfl⟩

theorem stringFallback_establishes (records : List DataRecord) (n : String) :
    ∀ r' ∈ stringFallback records n, ∀ v,
      lookupValue r'.values n = some v → ∃ s, v = Value.str s := by
  intro r' hr' v hv
  rcases mem_stringFallback hr' with ⟨r, _, _, hvals⟩
  rw [hvals, lookup_coerced_self] at hv
  rcases Option.map_eq_some'.mp hv with ⟨w, _, hw⟩
  rcases stringCoerce_isStr w with ⟨s, hs⟩
  exact ⟨s, by rw [← hw, hs]⟩

theorem foldl_stringFallback_preserves (names : List String) (records : List DataRecord)
    (n : String)
    (h : ∀ r ∈ records, ∀ v, lookupValue r.values n = some v → ∃ s, v = Value.str s) :
    ∀ r ∈ names.foldl stringFallback records, ∀ v,
      lookupValue r.values n = some v → ∃ s, v = Value.str s := by
  induction names generalizing records with
  | nil => exact h
  | cons m ms ih =>
    apply ih
    intro r' hr' v hv
    rcases mem_stringFallback hr' with ⟨r, hr, _, hvals⟩
    rw [hvals] at hv
    by_cases hnm : n = m
    · subst hnm
      rw [lookup_coerced_self] at hv
      rcases Option.map_eq_some'.mp hv with ⟨w, _, hw⟩
      rcases stringCoerce_isStr w with ⟨s, hs⟩
      exact ⟨s, by rw [← hw, hs]⟩
    · rw [lookup_coerced_other _ _ _ hnm] at hv
      exact h r hr v hv

theorem foldl_stringFallback_str (names : List String) (records : List DataRecord)
    (n : String) (hn : n ∈ names) :
    ∀ r ∈ names.foldl stringFallback records, ∀ v,
      lookupValue r.values n = some v → ∃ s, v = Value.str s := by
  induction names generalizing records with
  | nil => cases hn
  | cons m ms ih =>
    rcases List.mem_cons.mp hn with rfl | hmem
    · exact foldl_stringFallback_preserves ms _ n (stringFallback_establishes records n)
    · exact ih _ hmem

theorem keys_map_coerce (l : List (String × Value)) (n : String) :
    (l.map (coerceEntry n)).map Prod.fst = l.map Prod.fst := by
  rw [List.map_map]
  apply List.map_congr_left
  intro kv _
  simp only [Function.comp_def]
  exact coerceEntry_fst n kv

theorem keys_stringFallback (records : List DataRecord) (n : String) :
    (stringFallback records n).map (fun r => r.values.map Prod.fst) =
      records.map (fun r => r.values.map Prod.fst) := by
  unfold stringFallback
  rw [List.map_map]
  apply List.map_congr_left
  intro r _
  simp only [Function.comp_def]
  exact keys_map_coerce _ _

theorem keys_foldl_stringFallback (names : List String) (records : List DataRecord) :
    (names.foldl stringFallback records).map (fun r => r.values.map Prod.fst) =
      records.map (fun r => r.values.map Prod.fst) := by
  induction names generalizing records with
  | nil => rfl
  | cons m ms ih => rw [List.foldl_cons, ih, keys_stringFallback]

/-- Unfolded form of `queryFiles`. -/
theorem queryFiles_def (files : List TFile) (mc : TFile → Option FileCache) :
    queryFiles files mc =
      ⟨detectSchema (parseRecords files mc),
        (((detectSchema (parseRecords files mc)).filter
              (fun field => field.type = DataFieldType.string)).map
            (fun field => field.name)).foldl stringFallback (parseRecords files mc)⟩ := rfl

/-- C4: after the query pipeline, every record value present under a
String-typed field's name is a plain string, and normalization preserves each
record's key set exactly (in particular a value absent before normalization
stays absent). -/
theorem queryFiles_string_normalization (files : List TFile)
    (mc : TFile → Option FileCache) :
    (∀ f ∈ (queryFiles files mc).fields, f.type = DataFieldType.string →
      ∀ r ∈ (queryFiles files mc).records, ∀ v,
        lookupValue r.values f.name = some v → ∃ s, v = Value.str s) ∧
    ((queryFiles files mc).records).map (fun r => r.values.map Prod.fst) =
      (parseRecords files mc).map (fun r => r.values.map Prod.fst) := by
  rw [queryFiles_def]
  constructor
  · intro f hf ht r hr v hv
    have hn : f.name ∈ ((detectSchema (parseRecords files mc)).filter
        (fun field => field.type = DataFieldType.string)).map (fun field => field.name) :=
      List.mem_map.mpr ⟨f, List.mem_filter.mpr ⟨hf, by simp [ht]⟩, rfl⟩
    exact foldl_stringFallback_str _ _ _ hn r hr v hv
  · exact keys_foldl_stringFallback _ _

/-- Witness for C4: in a concrete query with a 50/50 number/string tie on
key "x", the detected "x" field is String-typed and the numeric observation
has been coerced to the plain string "1". -/
theorem queryFiles_string_normalization_witness :
    (⟨"x", DataFieldType.string, false, false, false⟩ : DataField) ∈
      (queryFiles [fileA, fileB] mcTie).fields ∧
    ∃ s, Value.str "1" = Value.str s :=
  ⟨by decide,
    (queryFiles_string_normalization [fileA, fileB] mcTie).1
      ⟨"x", DataFieldType.string, false, false, false⟩ (by decide) rfl
      ⟨"Projects/a.md",
        [("x", Value.str "1"), ("path", Value.str "Projects/a.md"),
         ("name", Value.str "a")]⟩
      (by exact List.Mem.head _) (Value.str "1") rfl⟩

theorem perm_any {α : Type} (f : α → Bool) {l₁ l₂ : List α} (h : l₁.Perm l₂) :
    l₁.any f = l₂.any f := by
  rw [Bool.eq_iff_iff, List.any_eq_true, List.any_eq_true]
  constructor
  · rintro ⟨x, hx, hf⟩
    exact ⟨x, h.mem_iff.mp hx, hf⟩
  · rintro ⟨x, hx, hf⟩
    exact ⟨x, h.mem_iff.mpr hx, hf⟩

theorem consensusType_perm {ts ts' : List DataFieldType} (h : ts.Perm ts') :
    consensusType ts = consensusType ts' := by
  simp only [consensusType]
  rw [h.count_eq, h.count_eq, h.count_eq, h.count_eq]

theorem allKeys_perm {rs rs' : List DataRecord} (h : rs.Perm rs') :
    (allKeys rs).Perm (allKeys rs') := by
  unfold allKeys
  exact (List.Perm.flatMap_right _ h).dedup

theorem detectSchema_perm {rs rs' : List DataRecord} (h : rs.Perm rs') :
    (detectSchema rs).Perm (detectSchema rs') := by
  rw [detectSchema_eq_map, detectSchema_eq_map]
  have hfun : (fun key =>
      ({ name := key
         type := consensusType ((observedValues rs key).map classify)
         repeated := (observedValues rs key).any Value.isList
         derived := decide (key = "name" ∨ key = "path")
         identifier := decide (key = "path") } : DataField)) =
      (fun key =>
      ({ name := key
         type := consensusType ((observedValues rs' key).map classify)
         repeated := (observedValues rs' key).any Value.isList
         derived := decide (key = "name" ∨ key = "path")
         identifier := decide (key = "path") } : DataField)) := by
    funext key
    have hobs : (observedValues rs key).Perm (observedValues rs' key) :=
      List.Perm.filterMap _ h
    rw [consensusType_perm (hobs.map classify), perm_any Value.isList hobs]
  rw [hfun]
  exact (allKeys_perm h).map _

/-- C5: schema detection is order-independent: permuting the records permutes
(at most) the field list, preserving every field's name, type, repeated,
derived and identifier flags; consensus typing depends only on the multiset
of observed types, and on an exact 50/50 tie between two distinct known
types it deterministically resolves to String. -/
theorem detectSchema_permutation_stable :
    (∀ rs rs' : List DataRecord, rs.Perm rs' →
      (detectSchema rs).Perm (detectSchema rs')) ∧
    (∀ ts ts' : List DataFieldType, ts.Perm ts' → consensusType ts = consensusType ts') ∧
    (∀ (n : Nat) (t₁ t₂ : DataFieldType), 0 < n → t₁ ≠ t₂ →
      t₁ ≠ DataFieldType.unknown → t₂ ≠ DataFieldType.unknown →
      consensusType (List.replicate n t₁ ++ List.replicate n t₂) =
        DataFieldType.string) := by
  refine ⟨fun rs rs' h => detectSchema_perm h,
    fun ts ts' h => consensusType_perm h, ?_⟩
  intro n t₁ t₂ hn hne h1 h2
  have hcount : ∀ t : DataFieldType,
      (List.replicate n t₁ ++ List.replicate n t₂).count t =
        (if t₁ = t then n else 0) + (if t₂ = t then n else 0) := by
    intro t
    simp only [List.count_append, List.count_replicate, beq_iff_eq]
  simp only [consensusType, hcount]
  cases t₁ <;> cases t₂ <;> simp_all <;> omega

/-- Witness for C5: a concrete transposition of two records permutes the
detected schema, and a concrete 1/1 number-boolean tie resolves to String. -/
theorem detectSchema_permutation_stable_witness :
    (detectSchema [⟨"a", [("x", Value.num 1)]⟩, ⟨"b", [("y", Value.boolean true)]⟩]).Perm
      (detectSchema [⟨"b", [("y", Value.boolean true)]⟩, ⟨"a", [("x", Value.num 1)]⟩]) ∧
    consensusType (List.replicate 1 DataFieldType.number ++
        List.replicate 1 DataFieldType.boolean) = DataFieldType.string :=
  ⟨detectSchema_permutation_stable.1 _ _
      (List.Perm.swap (⟨"b", [("y", Value.boolean true)]⟩ : DataRecord)
        (⟨"a", [("x", Value.num 1)]⟩ : DataRecord) []),
    detectSchema_permutation_stable.2.2 1 DataFieldType.number DataFieldType.boolean
      (by decide) (by decide) (by decide) (by decide)⟩

theorem ids_stringFallback (records : List DataRecord) (n : String) :
    (stringFallback records n).map (fun r => r.id) = records.map (fun r => r.id) := by
  unfold stringFallback
  rw [List.map_map]
  rfl

theorem ids_foldl_stringFallback (names : List String) (records : List DataRecord) :
    (names.foldl stringFallback records).map (fun r => r.id) =
      records.map (fun r => r.id) := by
  induction names generalizing records with
  | nil => rfl
  | cons m ms ih => rw [List.foldl_cons, ih, ids_stringFallback]

/-- C10 counterexample: a Markdown document under the collection root whose
metadata-cache lookup returns nothing contributes no record to `queryAll`,
refuting the claimed "record if and only if listed as Markdown and
included". -/
theorem queryAll_missing_cache_counterexample :
    (queryAll ⟨[(fileA, true)], fun _ => none⟩ ⟨"Projects", true⟩).records = [] ∧
    fileA ∈ getMarkdownFiles ⟨[(fileA, true)], fun _ => none⟩ ∧
    includes ⟨"Projects", true⟩ fileA.path = true :=
  ⟨rfl, by decide, by decide⟩

/-- C10 (amended): `queryAll` equals `queryFiles` on the Markdown listing
filtered by `includes`, and `queryOne` equals `queryFiles` on the singleton
list; a record appears in `queryAll` exactly for the documents of the
Markdown listing whose path is included and whose metadata-cache lookup
succeeds — in particular non-Markdown documents never contribute records. -/
theorem queryAll_markdown_characterization (app : AppModel)
    (project : ProjectDefinition) :
    (queryAll app project =
      queryFiles ((getMarkdownFiles app).filter (fun file => includes project file.path))
        app.metadataCache) ∧
    (∀ file, queryOne app file = queryFiles [file] app.metadataCache) ∧
    (∀ r ∈ (queryAll app project).records, ∃ file ∈ getMarkdownFiles app,
      includes project file.path = true ∧ (app.metadataCache file).isSome = true ∧
      r.id = file.path) ∧
    (∀ file ∈ getMarkdownFiles app, includes project file.path = true →
      (app.metadataCache file).isSome = true →
      ∃ r ∈ (queryAll app project).records, r.id = file.path) := by
  have hrec : (queryAll app project).records =
      (((detectSchema (parseRecords
            ((getMarkdownFiles app).filter (fun file => includes project file.path))
            app.metadataCache)).filter
          (fun field => field.type = DataFieldType.string)).map
        (fun field => field.name)).foldl stringFallback
        (parseRecords
          ((getMarkdownFiles app).filter (fun file => includes project file.path))
          app.metadataCache) := rfl
  refine ⟨rfl, fun _ => rfl, ?_, ?_⟩
  · intro r hr
    have h1 : r.id ∈ ((queryAll app project).records).map (fun x => x.id) :=
      List.mem_map.mpr ⟨r, hr, rfl⟩
    rw [hrec, ids_foldl_stringFallback] at h1
    rcases List.mem_map.mp h1 with ⟨r₀, hr₀, hid⟩
    rcases mem_parseRecords.mp hr₀ with ⟨file, hf, cache, hc, he⟩
    rcases List.mem_filter.mp hf with ⟨hmd, hinc⟩
    refine ⟨file, hmd, hinc, by rw [hc]; rfl, ?_⟩
    rw [← hid, ← he]
    rfl
  · intro file hmd hinc hsome
    rcases Option.isSome_iff_exists.mp hsome with ⟨cache, hc⟩
    have hr₀ : extractRecord file cache ∈ parseRecords
        ((getMarkdownFiles app).filter (fun file => includes project file.path))
        app.metadataCache :=
      mem_parseRecords.mpr ⟨file, List.mem_filter.mpr ⟨hmd, hinc⟩, cache, hc, rfl⟩
    have h1 : file.path ∈ ((queryAll app project).records).map (fun x => x.id) := by
      rw [hrec, ids_foldl_stringFallback]
      exact List.mem_map.mpr ⟨extractRecord file cache, hr₀, rfl⟩
    rcases List.mem_map.mp h1 with ⟨r, hr, hid⟩
    exact ⟨r, hr, hid⟩

/-- Witness for C10 (amended): in a concrete host holding one Markdown
document with a cache entry under the root, `queryAll` yields a record whose
id is that document's path. -/
theorem queryAll_markdown_characterization_witness :
    fileA ∈ getMarkdownFiles appTie ∧
    includes ⟨"Projects", true⟩ fileA.path = true ∧
    (appTie.metadataCache fileA).isSome = true ∧
    ∃ r ∈ (queryAll appTie ⟨"Projects", true⟩).records, r.id = fileA.path :=
  ⟨by decide, by decide, by decide,
    (queryAll_markdown_characterization appTie ⟨"Projects", true⟩).2.2.2 fileA
      (by decide) (by decide) (by decide)⟩

/-- C2: with root "Projects" and recursive = false, `includes` accepts
"Projects/a.md" and rejects "Projects/Sub/b.md" and "Other/a.md"; with
recursive = true it accepts both "Projects/a.md" and "Projects/Sub/b.md" and
still rejects "Other/a.md". -/
theorem includes_projects_boundary :
    includes ⟨"Projects", false⟩ "Projects/a.md" = true ∧
    includes ⟨"Projects", false⟩ "Projects/Sub/b.md" = false ∧
    includes ⟨"Projects", false⟩ "Other/a.md" = false ∧
    includes ⟨"Projects", true⟩ "Projects/a.md" = true ∧
    includes ⟨"Projects", true⟩ "Projects/Sub/b.md" = true ∧
    includes ⟨"Projects", true⟩ "Other/a.md" = false := by
  decide

/-- C6: prefix matching is textual, not path-segment-aware: root "Note" with
recursive = true accepts "Notes/x.md", while with recursive = false the
directory-equality check rejects it. -/
theorem includes_textual_root_matching :
    includes ⟨"Note", true⟩ "Notes/x.md" = true ∧
    includes ⟨"Note", false⟩ "Notes/x.md" = false := by
  decide
